import Mathlib

/-!
Verification development for the hybrid genetic search CVRP solver
(crate `hgs_cvrp`).  The Rust sources are embedded shallowly: machine
floats (`f64`) are modelled by exact rationals (`ℚ`); on every concrete
instance used below all floating-point computations of the original
program are exact (small integer coordinates on one axis, so every
Euclidean distance is the square root of a perfect square), hence the
rational model agrees bit-for-bit with the `f64` execution.  Fallible
or diverging loops are modelled with explicit fuel; `Option`/`Except`
model Rust `Option` and panics.
-/

/-- Node of the instance (src/problem.rs, `struct Node`): id, coordinates,
demand and depot flag. -/
structure Node where
  id : Nat
  x : ℚ
  y : ℚ
  demand : ℚ
  is_depot : Bool
deriving Repr, DecidableEq

/-- Problem instance (src/problem.rs, `struct Problem`).  The fully
materialised distance matrix is modelled as the lookup function
`distance_matrix`; `Problem::get_distance(i,j)` is exactly this table
lookup.  Fields not consumed by any claim (name, max_vehicles) are
omitted. -/
structure Problem where
  nodes : List Node
  depot_index : Nat
  vehicle_capacity : ℚ
  distance_matrix : Nat → Nat → ℚ

/-- `Problem::get_distance` (src/problem.rs): table lookup. -/
def Problem.get_distance (p : Problem) (i j : Nat) : ℚ :=
  p.distance_matrix i j

/-- `Problem::get_customer_count` (src/problem.rs): `nodes.len() - 1`. -/
def Problem.get_customer_count (p : Problem) : Nat :=
  p.nodes.length - 1

/-- Demand lookup `problem.nodes[c].demand`; out-of-range indices (which
would panic in Rust) default to 0 and are never hit in the developments
below. -/
def Problem.demandOf (p : Problem) (c : Nat) : ℚ :=
  ((p.nodes.get? c).map Node.demand).getD 0

/-- Route (src/solution.rs, `struct Route`): customer sequence plus the
cached load, cached distance and the staleness flag. -/
structure Route where
  customers : List Nat
  load : ℚ
  distance : ℚ
  modified : Bool

/-- `Route::new` (src/solution.rs lines 22-29). -/
def Route.new : Route :=
  { customers := [], load := 0, distance := 0, modified := true }

instance : Inhabited Route := ⟨Route.new⟩

/-- Depot-to-depot distance of a customer sequence: depot to first
customer, consecutive customers, last customer to depot.  This is the
loop body of `Route::calculate_distance` (src/solution.rs lines 55-66),
shared below with the Split embedding and the specification-side cost
of a partition. -/
def routeDistanceOf (p : Problem) (cs : List Nat) : ℚ :=
  match cs with
  | [] => 0
  | c :: _ =>
      p.get_distance p.depot_index c
        + ((cs.zip cs.tail).map (fun ab => p.get_distance ab.1 ab.2)).sum
        + p.get_distance (cs.getLastD 0) p.depot_index

/-- `Route::calculate_distance` (src/solution.rs lines 42-70): early
return when `modified` is false; otherwise recompute the distance and
clear the `modified` flag (also in the empty-customers branch). -/
def Route.calculate_distance (r : Route) (p : Problem) : Route :=
  if !r.modified then r
  else if r.customers.isEmpty then
    { r with distance := 0, modified := false }
  else
    { r with distance := routeDistanceOf p r.customers, modified := false }

/-- `Route::calculate_load` (src/solution.rs lines 73-85): early return
when `modified` is false; otherwise recompute the load.  Note that the
Rust function never clears the `modified` flag. -/
def Route.calculate_load (r : Route) (p : Problem) : Route :=
  if !r.modified then r
  else { r with load := (r.customers.map p.demandOf).sum }

/-- `Route::get_excess_load` (src/solution.rs lines 98-104). -/
def Route.get_excess_load (r : Route) (capacity : ℚ) : ℚ :=
  if r.load > capacity then r.load - capacity else 0

/-- Solution (src/solution.rs, `struct Solution`). -/
structure Solution where
  routes : List Route
  cost : ℚ
  distance : ℚ
  excess_capacity : ℚ
  is_feasible : Bool
  giant_tour : List Nat

/-- `Solution::new` (src/solution.rs lines 126-135). -/
def Solution.new : Solution :=
  { routes := [], cost := 0, distance := 0, excess_capacity := 0,
    is_feasible := true, giant_tour := [] }

instance : Inhabited Solution := ⟨Solution.new⟩

/-- `Solution::from_giant_tour` (src/solution.rs lines 138-146): only the
giant tour is populated; routes are left empty. -/
def Solution.from_giant_tour (giant_tour : List Nat) : Solution :=
  { Solution.new with giant_tour := giant_tour }

/-- Feasibility tolerance `1e-10` of `Solution::evaluate`. -/
def epsFeas : ℚ := 1 / 10 ^ 10

/-- `Solution::evaluate` (src/solution.rs lines 149-165).  For each route
the Rust code calls `calculate_distance` first and `calculate_load`
second, then accumulates `route.distance` and the excess load; finally
the aggregate fields are set. -/
def Solution.evaluate (s : Solution) (p : Problem) (capacity_penalty : ℚ) : Solution :=
  let routes := s.routes.map (fun r => (r.calculate_distance p).calculate_load p)
  let total_distance := (routes.map Route.distance).sum
  let total_excess := (routes.map (fun r => r.get_excess_load p.vehicle_capacity)).sum
  { s with
    routes := routes
    distance := total_distance
    excess_capacity := total_excess
    is_feasible := decide (total_excess ≤ epsFeas)
    cost := total_distance + capacity_penalty * total_excess }

/-- Concrete two-node instance for the evaluation claim: depot at x = 0,
customer 1 at x = 10 on the x-axis with demand 7, capacity 5.  The nodes
are collinear, so every Euclidean distance computed by
`Problem::compute_distance_matrix` equals the absolute coordinate
difference and is exact in `f64`. -/
def xsC2 : List ℚ := [0, 10]

def problemC2 : Problem :=
  { nodes := [ { id := 0, x := 0, y := 0, demand := 0, is_depot := true },
               { id := 1, x := 10, y := 0, demand := 7, is_depot := false } ]
    depot_index := 0
    vehicle_capacity := 5
    distance_matrix := fun i j => |xsC2.getD i 0 - xsC2.getD j 0| }

/-- A freshly modified route holding customer 1 with stale caches, the
state produced by `Route::new` plus a push (as in the crate test
`test_solution_evaluate`) or by any local-search move application. -/
def staleRouteC2 : Route :=
  { customers := [1], load := 0, distance := 0, modified := true }

def solutionC2 : Solution :=
  { Solution.new with routes := [staleRouteC2], giant_tour := [1] }

/-! ### Split (src/split.rs) -/

/-- Cumulative loads of the giant tour (src/split.rs lines 31-37):
`cum_load[i]` is the summed demand of the first `i` tour customers. -/
def cumLoad (p : Problem) (t : List Nat) : List ℚ :=
  (List.range (t.length + 1)).map (fun i => ((t.take i).map p.demandOf).sum)

/-- Distance of the candidate route serving `t[i..=j]` (src/split.rs
lines 53-65): depot to `t[i]`, the consecutive legs, and `t[j]` back to
the depot. -/
def splitRouteDistance (p : Problem) (t : List Nat) (i j : Nat) : ℚ :=
  p.get_distance p.depot_index (t.getD i 0)
    + ((List.range (j - i)).map
        (fun k => p.get_distance (t.getD (i + k) 0) (t.getD (i + k + 1) 0))).sum
    + p.get_distance (t.getD j 0) p.depot_index

/-- Strict comparison on potentials, `none` standing for `f64::INFINITY`
(in `f64`, `INFINITY < INFINITY` is false and `x + INFINITY = INFINITY`). -/
def ltInf : Option ℚ → Option ℚ → Bool
  | some a, some b => decide (a < b)
  | some _, none => true
  | none, _ => false

/-- Inner `while j < n` loop of `Split::split` (src/split.rs lines
46-76), as structural recursion on fuel.  Each iteration increments `j`
and the loop exits at `j = n`, so any fuel of at least `n` steps is
exact.  State: current `j`, `potential`, `pred`. -/
def splitWhile (p : Problem) (t : List Nat) (cum : List ℚ) (i : Nat) :
    Nat → Nat → List (Option ℚ) → List Nat → Nat × List (Option ℚ) × List Nat
  | 0, j, pot, pred => (j, pot, pred)
  | fuel + 1, j, pot, pred =>
    if j < t.length then
      if cum.getD (j + 1) 0 - cum.getD i 0 > p.vehicle_capacity then (j, pot, pred)
      else
        let np := (pot.getD i none).map (fun v => v + splitRouteDistance p t i j)
        if ltInf np (pot.getD (j + 1) none) then
          splitWhile p t cum i fuel (j + 1) (pot.set (j + 1) np) (pred.set (j + 1) i)
        else
          splitWhile p t cum i fuel (j + 1) pot pred
    else (j, pot, pred)

/-- Outer `for i in 0..n` loop of `Split::split` (src/split.rs lines
44-84).  The state carries the shared cursor `j` (NOT reset between
rows), the running `load_i`, and the `potential`/`pred` arrays. -/
def splitOuter (p : Problem) (t : List Nat) (cum : List ℚ) :
    List Nat → Nat × ℚ × List (Option ℚ) × List Nat →
    Nat × ℚ × List (Option ℚ) × List Nat
  | [], st => st
  | i :: rest, (j, load_i, pot, pred) =>
    let s1 := splitWhile p t cum i (t.length + 1) j pot pred
    let load2 := load_i + p.demandOf (t.getD i 0)
    let j2 :=
      if s1.1 < t.length ∧ (load2 > p.vehicle_capacity ∨ i = s1.1) then s1.1 + 1 else s1.1
    splitOuter p t cum rest (j2, load2, s1.2.1, s1.2.2)

/-- Route reconstruction loop `while j > 0` of `Split::split`
(src/split.rs lines 88-107), pushing the segment `t[pred[j]..j)` and
jumping to `pred[j]`.  `pred[j] < j` always holds (proved below), so a
fuel of `n + 1` is exact. -/
def splitReconstruct (t : List Nat) (pred : List Nat) : Nat → Nat → List (List Nat)
  | 0, _ => []
  | fuel + 1, j =>
    if j = 0 then []
    else
      let i := pred.getD j 0
      ((t.drop i).take (j - i)) :: splitReconstruct t pred fuel i

/-- Construction of one reconstructed route (src/split.rs lines 94-101):
a fresh route with the segment pushed, then `calculate_load` followed by
`calculate_distance`. -/
def mkSplitRoute (p : Problem) (cs : List Nat) : Route :=
  (({ Route.new with customers := cs }).calculate_load p).calculate_distance p

/-- `Split::split` (src/split.rs lines 14-114): empty tour clears the
routes and returns; otherwise run the DP, reconstruct the routes
back-to-front, reverse them, and evaluate the solution with penalty 1. -/
def Split.split (sol : Solution) (p : Problem) : Solution :=
  if sol.giant_tour.isEmpty then { sol with routes := [] }
  else
    let t := sol.giant_tour
    let n := t.length
    let cum := cumLoad p t
    let pot0 : List (Option ℚ) := some 0 :: List.replicate n none
    let pred0 : List Nat := List.replicate (n + 1) 0
    let st := splitOuter p t cum (List.range n) (0, 0, pot0, pred0)
    let segs := splitReconstruct t st.2.2.2 (n + 1) n
    ({ sol with routes := (segs.map (mkSplitRoute p)).reverse }).evaluate p 1

/-- Claim C2.  After `Solution::evaluate` the cached load of the single
route is still 0 although the sum of its customer demands is 7: because
`calculate_distance` runs first and clears the `modified` flag,
`calculate_load` early-returns and never recomputes the load.  The
aggregate excess is therefore 0 and the solution is classified feasible
with cost 20, where the claim (and the crate test
`test_solution_evaluate`) require load 7, excess 2, infeasibility and
cost 20 + 10 * 2 = 40. -/
theorem c2_evaluate_leaves_load_stale :
    ((solutionC2.evaluate problemC2 10).routes.getD 0 Route.new).load = 0
    ∧ ((staleRouteC2.customers.map problemC2.demandOf).sum = 7)
    ∧ (solutionC2.evaluate problemC2 10).is_feasible = true
    ∧ (solutionC2.evaluate problemC2 10).excess_capacity = 0
    ∧ (solutionC2.evaluate problemC2 10).distance = 20
    ∧ (solutionC2.evaluate problemC2 10).cost = 20
    ∧ (0 : ℚ) ≠ 7 := by
  refine ⟨?_, ?_, ?_, ?_, ?_, ?_, ?_⟩ <;>
    simp [Solution.evaluate, Route.calculate_distance, Route.calculate_load,
      routeDistanceOf, Route.get_excess_load, Problem.demandOf, Problem.get_distance,
      problemC2, solutionC2, staleRouteC2, xsC2, epsFeas, Solution.new, Route.new,
      Solution.from_giant_tour] <;> norm_num

/-! ### Claim C1: optimality of Split -/

/-- Specification side (spec 4.3, "minimises total distance over all
capacity-respecting order-preserving partitions"): a list of routes is a
capacity-respecting order-preserving partition of the tour when its
concatenation is the tour and every part fits the vehicle capacity. -/
def specAdmissiblePartition (p : Problem) (t : List Nat) (parts : List (List Nat)) : Prop :=
  parts.flatten = t ∧ ∀ r ∈ parts, (r.map p.demandOf).sum ≤ p.vehicle_capacity

/-- Specification side: total distance of a partition, each part costed
depot-to-depot with the distance matrix of the problem. -/
def specTotalDistance (p : Problem) (parts : List (List Nat)) : ℚ :=
  (parts.map (routeDistanceOf p)).sum

/-- Counterexample instance for claim C1: depot at the origin, four unit
demand customers on the x-axis at x = 10, 11, 1, 2, capacity 3.  All
points are collinear, so the Euclidean matrix computed by
`Problem::compute_distance_matrix` is exactly the absolute coordinate
difference (its `f64` square roots of perfect squares are exact). -/
def xsC1 : List ℚ := [0, 10, 11, 1, 2]

def problemC1 : Problem :=
  { nodes := [ { id := 0, x := 0, y := 0, demand := 0, is_depot := true },
               { id := 1, x := 10, y := 0, demand := 1, is_depot := false },
               { id := 2, x := 11, y := 0, demand := 1, is_depot := false },
               { id := 3, x := 1, y := 0, demand := 1, is_depot := false },
               { id := 4, x := 2, y := 0, demand := 1, is_depot := false } ]
    depot_index := 0
    vehicle_capacity := 3
    distance_matrix := fun i j => |xsC1.getD i 0 - xsC1.getD j 0| }

def solC1 : Solution := Solution.from_giant_tour [1, 2, 3, 4]

set_option maxHeartbeats 1000000 in
/-- Claim C1.  On `problemC1` with giant tour `[1, 2, 3, 4]` (a
permutation of all customers, every single demand within capacity),
`Split::split` produces the partition `[[1], [2, 3, 4]]` of total
distance 44, while the capacity-respecting order-preserving partition
`[[1, 2], [3, 4]]` costs only 26: because the DP cursor `j` is shared
across the outer `i` loop, each `potential[j+1]` is relaxed from exactly
one predecessor and the cheaper partition is never examined, so Split
does not minimise. -/
theorem c1_split_not_minimal :
    ((Split.split solC1 problemC1).routes.map Route.customers) = [[1], [2, 3, 4]]
    ∧ (Split.split solC1 problemC1).distance = 44
    ∧ (∀ c ∈ solC1.giant_tour, problemC1.demandOf c ≤ problemC1.vehicle_capacity)
    ∧ solC1.giant_tour.Nodup
    ∧ specAdmissiblePartition problemC1 solC1.giant_tour [[1, 2], [3, 4]]
    ∧ specTotalDistance problemC1 [[1, 2], [3, 4]] = 26
    ∧ (26 : ℚ) < 44 := by
  refine ⟨?_, ?_, ?_, ?_, ⟨?_, ?_⟩, ?_, by norm_num⟩ <;>
    norm_num [Split.split, splitOuter, splitWhile, splitReconstruct, cumLoad,
      splitRouteDistance, ltInf, mkSplitRoute, Solution.evaluate, Route.calculate_load,
      Route.calculate_distance, routeDistanceOf, Problem.demandOf, Problem.get_distance,
      problemC1, solC1, xsC1, Solution.from_giant_tour, Solution.new, Route.new,
      List.range_succ, Route.get_excess_load, epsFeas, specTotalDistance,
      specAdmissiblePartition]

/-! ### Claim C9: Split partitions the giant tour -/

/-- All of `calculate_distance`, `calculate_load` leave the customer
sequence of a route unchanged. -/
lemma Route.customers_calculate_distance (r : Route) (p : Problem) :
    (r.calculate_distance p).customers = r.customers := by
  unfold Route.calculate_distance
  split
  · rfl
  · split <;> rfl

lemma Route.customers_calculate_load (r : Route) (p : Problem) :
    (r.calculate_load p).customers = r.customers := by
  unfold Route.calculate_load
  split <;> rfl

lemma mkSplitRoute_customers (p : Problem) (cs : List Nat) :
    (mkSplitRoute p cs).customers = cs := by
  unfold mkSplitRoute
  rw [Route.customers_calculate_distance, Route.customers_calculate_load]

/-- Well-formedness of the predecessor array: every entry points
strictly backwards.  It holds initially (all zeros) and is preserved by
every relaxation `pred[j+1] = i` with `i ≤ j`. -/
def predWF (pred : List Nat) : Prop :=
  ∀ k, 1 ≤ k → pred.getD k 0 < k

lemma getD_set_ne {α : Type} (l : List α) (k m : Nat) (v d : α) (h : m ≠ k) :
    (l.set k v).getD m d = l.getD m d := by
  simp [List.getD, List.getElem?_set_ne (Ne.symm h)]

lemma predWF_set (pred : List Nat) (j i : Nat) (hij : i ≤ j) (h : predWF pred) :
    predWF (pred.set (j + 1) i) := by
  intro k hk
  by_cases hkj : k = j + 1
  · subst hkj
    by_cases hlen : j + 1 < pred.length
    · have : (pred.set (j + 1) i).getD (j + 1) 0 = i := by
        simp [List.getD, List.getElem?_set_self, hlen]
      omega
    · rw [List.set_eq_of_length_le (by omega)]
      exact h _ hk
  · rw [getD_set_ne _ _ _ _ _ hkj]
    exact h k hk

/-- When the cursor is already at the end, the inner while loop is a
no-op. -/
lemma splitWhile_of_ge (p : Problem) (t : List Nat) (cum : List ℚ) (i : Nat)
    (fuel j : Nat) (pot : List (Option ℚ)) (pred : List Nat) (h : t.length ≤ j) :
    splitWhile p t cum i fuel j pot pred = (j, pot, pred) := by
  cases fuel <;> simp [splitWhile, Nat.not_lt.mpr h]

/-- The inner while loop preserves predecessor well-formedness and never
moves the cursor backwards, provided the current row index is at most
the cursor. -/
lemma splitWhile_inv (p : Problem) (t : List Nat) (cum : List ℚ) (i : Nat) :
    ∀ fuel j pot pred, predWF pred → i ≤ j →
      predWF (splitWhile p t cum i fuel j pot pred).2.2
      ∧ j ≤ (splitWhile p t cum i fuel j pot pred).1 := by
  intro fuel
  induction fuel with
  | zero => intro j pot pred hwf _; exact ⟨hwf, le_refl j⟩
  | succ fuel ih =>
    intro j pot pred hwf hij
    by_cases hj : j < t.length
    · by_cases hcap : cum.getD (j + 1) 0 - cum.getD i 0 > p.vehicle_capacity
      · simp only [splitWhile, if_pos hj, if_pos hcap]
        exact ⟨hwf, le_refl j⟩
      · by_cases hrel :
          ltInf ((pot.getD i none).map
            (fun v => v + splitRouteDistance p t i j)) (pot.getD (j + 1) none) = true
        · simp only [splitWhile, if_pos hj, if_neg hcap]
          rw [if_pos hrel]
          have h1 := ih (j + 1) (pot.set (j + 1)
            ((pot.getD i none).map (fun v => v + splitRouteDistance p t i j)))
            (pred.set (j + 1) i) (predWF_set pred j i hij hwf) (by omega)
          exact ⟨h1.1, by omega⟩
        · simp only [splitWhile, if_pos hj, if_neg hcap]
          rw [if_neg hrel]
          have h1 := ih (j + 1) pot pred hwf (by omega)
          exact ⟨h1.1, by omega⟩
    · rw [splitWhile_of_ge p t cum i _ j pot pred (Nat.not_lt.mp hj)]
      exact ⟨hwf, le_refl j⟩

/-- The outer loop preserves predecessor well-formedness.  The second
hypothesis is the loop invariant: the next row index is at most the
shared cursor, unless the cursor has run off the end of the tour. -/
lemma splitOuter_inv (p : Problem) (t : List Nat) (cum : List ℚ) :
    ∀ (k a j : Nat) (load : ℚ) pot pred, predWF pred → (a ≤ j ∨ t.length ≤ j) →
      predWF (splitOuter p t cum (List.range' a k) (j, load, pot, pred)).2.2.2 := by
  intro k
  induction k with
  | zero => intro a j load pot pred hwf _; simpa [splitOuter] using hwf
  | succ k ih =>
    intro a j load pot pred hwf hinv
    rw [List.range'_succ]
    rcases hinv with haj | hend
    · have hw := splitWhile_inv p t cum a (t.length + 1) j pot pred hwf haj
      simp only [splitOuter]
      set s1 := splitWhile p t cum a (t.length + 1) j pot pred with hs1
      by_cases hcond : s1.1 < t.length ∧
          (load + p.demandOf (t.getD a 0) > p.vehicle_capacity ∨ a = s1.1)
      · rw [if_pos hcond]
        exact ih (a + 1) (s1.1 + 1) _ _ _ hw.1 (Or.inl (by omega))
      · rw [if_neg hcond]
        push_neg at hcond
        by_cases hlt : s1.1 < t.length
        · have hne := (hcond hlt).2
          have : a ≤ s1.1 := le_trans haj hw.2
          exact ih (a + 1) s1.1 _ _ _ hw.1 (Or.inl (by omega))
        · exact ih (a + 1) s1.1 _ _ _ hw.1 (Or.inr (by omega))
    · rw [splitOuter]
      rw [splitWhile_of_ge p t cum a (t.length + 1) j pot pred hend]
      have : ¬(j < t.length ∧
          (load + p.demandOf (t.getD a 0) > p.vehicle_capacity ∨ a = j)) := by
        intro hc; omega
      rw [if_neg this]
      exact ih (a + 1) j _ _ _ hwf (Or.inr hend)

/-- The reconstruction loop tiles the first `j` tour positions: the
reversed segment list concatenates to `t.take j`. -/
lemma splitReconstruct_flatten (t : List Nat) (pred : List Nat) (hwf : predWF pred) :
    ∀ fuel j, j ≤ fuel →
      ((splitReconstruct t pred fuel j).reverse).flatten = t.take j := by
  intro fuel
  induction fuel with
  | zero =>
    intro j hj
    have : j = 0 := by omega
    subst this
    simp [splitReconstruct]
  | succ fuel ih =>
    intro j hj
    by_cases hj0 : j = 0
    · subst hj0; simp [splitReconstruct]
    · have hpred : pred.getD j 0 < j := hwf j (by omega)
      rw [splitReconstruct, if_neg hj0]
      rw [List.reverse_cons, List.flatten_append]
      rw [ih (pred.getD j 0) (by omega)]
      simp only [List.flatten_cons, List.flatten_nil, List.append_nil]
      rw [← List.take_add]
      congr 1
      omega

lemma predWF_replicate (n : Nat) : predWF (List.replicate n 0) := by
  intro k hk
  have h : (List.replicate n (0 : Nat)).getD k 0 = 0 := by
    simp [List.getD, List.getElem?_replicate]
    split <;> rfl
  omega

/-- In a duplicate-free concatenation every element of the concatenation
belongs to exactly one part. -/
lemma countP_flatten_nodup (c : Nat) :
    ∀ ss : List (List Nat), ss.flatten.Nodup → c ∈ ss.flatten →
      ss.countP (fun r => decide (c ∈ r)) = 1 := by
  intro ss
  induction ss with
  | nil => intro _ hc; simp at hc
  | cons s ss ih =>
    intro hnd hc
    rw [List.flatten_cons] at hnd hc
    rw [List.nodup_append] at hnd
    rw [List.countP_cons]
    rcases List.mem_append.mp hc with hcs | hcss
    · have h0 : ss.countP (fun r => decide (c ∈ r)) = 0 := by
        rw [List.countP_eq_zero]
        intro r hr
        simp only [decide_eq_true_eq]
        intro hcr
        exact hnd.2.2 hcs (List.mem_flatten.mpr ⟨r, hr, hcr⟩)
      simp [h0, hcs]
    · have h1 := ih hnd.2.1 hcss
      have hns : c ∉ s := fun hcs => hnd.2.2 hcs hcss
      simp [h1, hns]

lemma final_split_route_customers (p : Problem) (cs : List Nat) :
    (((mkSplitRoute p cs).calculate_distance p).calculate_load p).customers = cs := by
  rw [Route.customers_calculate_load, Route.customers_calculate_distance,
    mkSplitRoute_customers]

/-- The customer sequences of the routes produced by `Split::split`,
in route order, are exactly the reversed reconstruction segments. -/
lemma split_routes_customers (p : Problem) (sol : Solution)
    (hemp : ¬ sol.giant_tour.isEmpty = true) :
    (Split.split sol p).routes.map Route.customers
      = (splitReconstruct sol.giant_tour
          (splitOuter p sol.giant_tour (cumLoad p sol.giant_tour)
            (List.range sol.giant_tour.length)
            (0, 0, some 0 :: List.replicate sol.giant_tour.length none,
             List.replicate (sol.giant_tour.length + 1) 0)).2.2.2
          (sol.giant_tour.length + 1) sol.giant_tour.length).reverse := by
  rw [Split.split, if_neg hemp]
  simp only [Solution.evaluate, List.map_map, List.map_reverse]
  have : (Route.customers ∘ (fun r => (r.calculate_distance p).calculate_load p) ∘
      mkSplitRoute p) = id := by
    funext cs
    simp [Function.comp, final_split_route_customers]
  rw [this, List.map_id]

/-- Claim C9.  After `Split::split` the concatenation of the route
customer sequences is exactly the giant tour (so in particular equal as
a multiset); when the giant tour has no duplicates every tour customer
lies in exactly one route; the empty giant tour yields an empty route
list. -/
theorem c9_split_partitions_tour (p : Problem) (sol : Solution) :
    ((Split.split sol p).routes.map Route.customers).flatten = sol.giant_tour
    ∧ (sol.giant_tour.Nodup →
        ∀ c ∈ sol.giant_tour,
          (Split.split sol p).routes.countP (fun r => decide (c ∈ r.customers)) = 1)
    ∧ (sol.giant_tour = [] → (Split.split sol p).routes = []) := by
  by_cases hemp : sol.giant_tour.isEmpty = true
  · have ht : sol.giant_tour = [] := List.isEmpty_iff.mp hemp
    refine ⟨?_, ?_, ?_⟩
    · simp [Split.split, hemp, ht]
    · intro _ c hc
      rw [ht] at hc
      simp at hc
    · intro _
      simp [Split.split, hemp]
  · have hwf : predWF (splitOuter p sol.giant_tour (cumLoad p sol.giant_tour)
        (List.range sol.giant_tour.length)
        (0, 0, some 0 :: List.replicate sol.giant_tour.length none,
         List.replicate (sol.giant_tour.length + 1) 0)).2.2.2 := by
      rw [List.range_eq_range']
      exact splitOuter_inv p sol.giant_tour (cumLoad p sol.giant_tour)
        sol.giant_tour.length 0 0 0 _ _
        (predWF_replicate (sol.giant_tour.length + 1)) (Or.inl (Nat.le_refl 0))
    have hflat : ((Split.split sol p).routes.map Route.customers).flatten
        = sol.giant_tour := by
      rw [split_routes_customers p sol hemp]
      rw [splitReconstruct_flatten sol.giant_tour _ hwf (sol.giant_tour.length + 1)
        sol.giant_tour.length (by omega)]
      exact List.take_length _
    refine ⟨hflat, ?_, ?_⟩
    · intro hnd c hc
      have h1 : (Split.split sol p).routes.countP (fun r => decide (c ∈ r.customers))
          = ((Split.split sol p).routes.map Route.customers).countP
              (fun l => decide (c ∈ l)) := by
        rw [List.countP_map]
        rfl
      rw [h1]
      refine countP_flatten_nodup c _ ?_ ?_
      · rw [hflat]; exact hnd
      · rw [hflat]; exact hc
    · intro h0
      exact absurd (by simp [h0]) hemp

/-- Witness for C9 at the concrete instance of C1: the giant tour
`[1, 2, 3, 4]` has no duplicates and customer 1 appears in exactly one
route of the split solution. -/
theorem c9_split_partitions_tour_witness :
    (Split.split solC1 problemC1).routes.countP (fun r => decide (1 ∈ r.customers)) = 1 :=
  (c9_split_partitions_tour problemC1 solC1).2.1 (by decide) 1 (by decide)

/-! ### Ordered crossover (src/genetic.rs) -/

/-- The customers `p1[start..=end]` copied by the crossover segment loop. -/
def oxSegment (p1 : List Nat) (s e : Nat) : List Nat :=
  (p1.drop s).take (e + 1 - s)

/-- Segment copy loop of `Genetic::crossover` (src/genetic.rs lines
38-40): `for i in start..=end { offspring[i] = p1[i] }`. -/
def copySegment (p1 : List Nat) (s e : Nat) (off : List Nat) : List Nat :=
  (List.range (e + 1 - s)).foldl (fun o k => o.set (s + k) (p1.getD (s + k) 0)) off

/-- The `used` hash set after the segment loop (src/genetic.rs lines
43-46): the customers of the copied segment. -/
def segmentSet (p1 : List Nat) (s e : Nat) : Finset Nat :=
  (oxSegment p1 s e).toFinset

/-- Fill loop of `Genetic::crossover` (src/genetic.rs lines 49-59), as
structural recursion on fuel; each iteration inspects `p2[p2_idx]`,
writes it into the next empty slot when it is not yet used, and advances
`p2_idx` cyclically.  Under the preconditions of claim C8 the loop stops
within `p2.len()` iterations (proved below), so that fuel is exact. -/
def crossoverFillAux (p2 : List Nat) (n : Nat) :
    Nat → List Nat → Finset Nat → Nat → Nat → List Nat × Finset Nat
  | 0, off, used, _, _ => (off, used)
  | fuel + 1, off, used, j, p2i =>
    if used.card < n then
      if p2.getD p2i 0 ∈ used then
        crossoverFillAux p2 n fuel off used j ((p2i + 1) % p2.length)
      else
        crossoverFillAux p2 n fuel (off.set j (p2.getD p2i 0))
          (insert (p2.getD p2i 0) used) ((j + 1) % n) ((p2i + 1) % p2.length)
    else (off, used)

/-- The fill loop re-expressed over the explicit stream of inspected
parent-2 customers (the cyclic walk of `p2` starting at `p2_idx`);
`crossoverFillAux` with fuel `f` consumes exactly the first `f` stream
elements (lemma `crossoverFillAux_eq_list` below). -/
def crossoverFillList (n : Nat) :
    List Nat → List Nat → Finset Nat → Nat → List Nat × Finset Nat
  | [], off, used, _ => (off, used)
  | c :: rest, off, used, j =>
    if used.card < n then
      if c ∈ used then crossoverFillList n rest off used j
      else crossoverFillList n rest (off.set j c) (insert c used) ((j + 1) % n)
    else (off, used)

/-- `Genetic::crossover` (src/genetic.rs lines 13-63) over the parent
giant tours, with the two random cut points as explicit parameters (the
code draws them uniformly from `0..tour_size`).  Returns the offspring
solution built by `create_solution_from_tour`: only the giant tour is
populated. -/
def Genetic.crossover (p1_tour p2_tour : List Nat) (cut1 cut2 : Nat) : Solution :=
  if p1_tour.isEmpty ∨ p2_tour.isEmpty then Solution.new
  else
    let n := p1_tour.length
    let s := if cut1 ≤ cut2 then cut1 else cut2
    let e := if cut1 ≤ cut2 then cut2 else cut1
    let off1 := copySegment p1_tour s e (List.replicate n 0)
    let used0 := segmentSet p1_tour s e
    Solution.from_giant_tour
      (crossoverFillAux p2_tour n p2_tour.length off1 used0
        ((e + 1) % n) ((e + 1) % p2_tour.length)).1

/-! ### Claim C8: crossover produces a permutation -/

/-- Writing `v` into position `j` exchanges the old entry for `v` in the
multiset of the list. -/
lemma multiset_set_exchange (l : List Nat) (j v : Nat) (hj : j < l.length) :
    ((l.set j v : List Nat) : Multiset Nat) + {l.getD j 0}
      = ((l : List Nat) : Multiset Nat) + {v} := by
  have h1 : l.set j v = l.take j ++ v :: l.drop (j + 1) :=
    List.set_eq_take_cons_drop v hj
  have h2 : l = l.take j ++ l[j] :: l.drop (j + 1) := by
    conv_lhs => rw [← List.take_append_drop j l]
    rw [List.drop_eq_getElem_cons hj]
  rw [List.getD_eq_getElem l 0 hj, h1]
  conv_rhs => rw [h2]
  show (↑(l.take j) + (v ::ₘ ↑(l.drop (j + 1)))) + {l[j]}
      = (↑(l.take j) + (l[j] ::ₘ ↑(l.drop (j + 1)))) + {v}
  rw [← Multiset.singleton_add v, ← Multiset.singleton_add (l[j])]
  abel

/-- The cyclic fill positions `(e + 1 + t) % n` for
`t < n - (segment length)` lie outside the copied segment `[s, e]`. -/
lemma cyclic_out (n s e t : Nat) (hse : s ≤ e) (hen : e < n)
    (ht : t < n - (e + 1 - s)) :
    (e + 1 + t) % n < s ∨ e < (e + 1 + t) % n := by
  rcases Nat.lt_or_ge (e + 1 + t) n with h | h
  · right; rw [Nat.mod_eq_of_lt h]; omega
  · left
    rw [Nat.mod_eq_sub_mod h, Nat.mod_eq_of_lt (by omega)]
    omega

/-- The cyclic fill positions are pairwise distinct below `n`. -/
lemma cyclic_inj (n e t w : Nat) (ht : t < n) (hw : w < n)
    (h : (e + 1 + t) % n = (e + 1 + w) % n) : t = w := by
  have h2 : t ≡ w [MOD n] := Nat.ModEq.add_left_cancel' (e + 1) h
  have h3 : t % n = w % n := h2
  rwa [Nat.mod_eq_of_lt ht, Nat.mod_eq_of_lt hw] at h3

lemma replicate_getD_zero (m k : Nat) : (List.replicate m (0 : Nat)).getD k 0 = 0 := by
  simp [List.getD, List.getElem?_replicate]
  split <;> rfl

/-- The segment copy loop splices `p1[s..s+m)` into the base list. -/
lemma copySeg_loop (p1 : List Nat) (s : Nat) :
    ∀ (m : Nat) (base : List Nat), s + m ≤ p1.length → s + m ≤ base.length →
      (List.range m).foldl (fun o k => o.set (s + k) (p1.getD (s + k) 0)) base
        = base.take s ++ (p1.drop s).take m ++ base.drop (s + m) := by
  intro m
  induction m with
  | zero =>
    intro base _ hsb
    simp only [List.range_zero, List.foldl_nil, List.take_zero, List.append_nil,
      Nat.add_zero]
    rw [List.take_append_drop]
  | succ m ih =>
    intro base hp hb
    rw [List.range_succ, List.foldl_append]
    rw [ih base (by omega) (by omega)]
    simp only [List.foldl_cons, List.foldl_nil]
    have hTS : (base.take s ++ (p1.drop s).take m).length = s + m := by
      rw [List.length_append, List.length_take, List.length_take, List.length_drop]
      omega
    have hsm : s + m < base.length := by omega
    have hstep : (base.take s ++ (p1.drop s).take m ++ base.drop (s + m)).set (s + m)
        (p1.getD (s + m) 0)
        = (base.take s ++ (p1.drop s).take m)
            ++ (base.drop (s + m)).set 0 (p1.getD (s + m) 0) := by
      rw [List.set_append]
      rw [if_neg (by omega)]
      rw [hTS, Nat.sub_self]
    rw [hstep]
    have hdrop : base.drop (s + m) = base[s + m] :: base.drop (s + m + 1) :=
      List.drop_eq_getElem_cons hsm
    rw [hdrop]
    have hseg : (p1.drop s).take (m + 1) = (p1.drop s).take m ++ [p1.getD (s + m) 0] := by
      rw [List.take_succ]
      congr 1
      have hm : m < (p1.drop s).length := by
        rw [List.length_drop]; omega
      rw [List.getElem?_eq_getElem hm]
      rw [List.getElem_drop]
      rw [List.getD_eq_getElem p1 0 (by omega)]
      rfl
    rw [hseg]
    simp only [List.set]
    simp [List.append_assoc, Nat.add_assoc]

/-- `copySegment` on the zero-filled base yields the zero-padded copied
segment. -/
lemma copySegment_sandwich (p1 : List Nat) (s e : Nat) (hse : s ≤ e)
    (hen : e < p1.length) :
    copySegment p1 s e (List.replicate p1.length 0)
      = List.replicate s 0 ++ oxSegment p1 s e
          ++ List.replicate (p1.length - 1 - e) 0 := by
  unfold copySegment oxSegment
  rw [copySeg_loop p1 s (e + 1 - s) (List.replicate p1.length 0) (by omega)
    (by rw [List.length_replicate]; omega)]
  rw [List.take_replicate, List.drop_replicate]
  have h1 : s ⊓ p1.length = s := inf_eq_left.mpr (by omega)
  have h2 : p1.length - (s + (e + 1 - s)) = p1.length - 1 - e := by omega
  rw [h1, h2]

lemma oxSegment_length (p1 : List Nat) (s e : Nat) (hse : s ≤ e)
    (hen : e < p1.length) : (oxSegment p1 s e).length = e + 1 - s := by
  unfold oxSegment
  rw [List.length_take, List.length_drop]
  omega

lemma oxSegment_sublist (p1 : List Nat) (s e : Nat) :
    (oxSegment p1 s e).Sublist p1 :=
  (List.take_sublist _ _).trans (List.drop_sublist _ _)

/-- At loop exit with the used set equal to the full customer set, the
offspring is a permutation of parent 1. -/
lemma crossoverFill_exit_perm (p1 seg written off : List Nat) (hnd : p1.Nodup)
    (husedS : (seg ++ written).toFinset = p1.toFinset)
    (hnd2 : (seg ++ written).Nodup)
    (hMS : (off : Multiset Nat) = (seg : Multiset Nat) + (written : Multiset Nat)
        + Multiset.replicate (p1.length - seg.length - written.length) 0) :
    off.Perm p1 := by
  have h1 : (seg ++ written).toFinset.card = (seg ++ written).length :=
    List.toFinset_card_of_nodup hnd2
  have h2 : p1.toFinset.card = p1.length := List.toFinset_card_of_nodup hnd
  rw [husedS, h2] at h1
  rw [List.length_append] at h1
  have hz : p1.length - seg.length - written.length = 0 := by omega
  rw [hz] at hMS
  simp only [Multiset.replicate_zero, add_zero] at hMS
  have hperm1 : off.Perm (seg ++ written) := by
    rw [← Multiset.coe_eq_coe, hMS]
    rfl
  exact hperm1.trans (List.perm_of_nodup_nodup_toFinset_eq hnd2 hnd husedS)

/-- Loop invariant of the crossover fill, over the stream of inspected
parent-2 customers.  `seg` is the copied segment, `written` the
customers already written into the cyclic fill slots; the used set and
the current write position are determined by them.  When the stream
retains every not-yet-used customer, the final offspring is a
permutation of parent 1. -/
lemma crossoverFillList_perm (p1 : List Nat) (hnd : p1.Nodup) (hn : 0 < p1.length)
    (e : Nat) (seg : List Nat) (hsegsub : ∀ x ∈ seg, x ∈ p1) :
    ∀ (rem written off : List Nat),
      (∀ x ∈ rem, x ∈ p1) →
      (∀ x ∈ p1, x ∈ (seg ++ written).toFinset ∨ x ∈ rem) →
      (seg ++ written).Nodup →
      (∀ x ∈ written, x ∈ p1) →
      off.length = p1.length →
      ((off : Multiset Nat)
        = (seg : Multiset Nat) + (written : Multiset Nat)
            + Multiset.replicate (p1.length - seg.length - written.length) 0) →
      (∀ t, written.length ≤ t → t < p1.length - seg.length →
          off.getD ((e + 1 + t) % p1.length) 0 = 0) →
      seg.length + written.length ≤ p1.length →
      (crossoverFillList p1.length rem off ((seg ++ written).toFinset)
          ((e + 1 + written.length) % p1.length)).1.Perm p1 := by
  intro rem
  induction rem with
  | nil =>
    intro written off hrem hcover hnd2 hwsub hlen hMS hzeros hwb
    simp only [crossoverFillList]
    have husedS : (seg ++ written).toFinset = p1.toFinset := by
      apply Finset.Subset.antisymm
      · intro x hx
        rw [List.mem_toFinset] at hx
        rw [List.mem_toFinset]
        rcases List.mem_append.mp hx with h | h
        · exact hsegsub x h
        · exact hwsub x h
      · intro x hx
        rw [List.mem_toFinset] at hx
        rcases hcover x hx with h | h
        · exact h
        · simp at h
    exact crossoverFill_exit_perm p1 seg written off hnd husedS hnd2 hMS
  | cons c rest ih =>
    intro written off hrem hcover hnd2 hwsub hlen hMS hzeros hwb
    have hsubP : (seg ++ written).toFinset ⊆ p1.toFinset := by
      intro x hx
      rw [List.mem_toFinset] at hx
      rw [List.mem_toFinset]
      rcases List.mem_append.mp hx with h | h
      · exact hsegsub x h
      · exact hwsub x h
    by_cases hguard : ((seg ++ written).toFinset).card < p1.length
    · by_cases hc : c ∈ (seg ++ written).toFinset
      · simp only [crossoverFillList, if_pos hguard, if_pos hc]
        refine ih written off (fun x hx => hrem x (List.mem_cons_of_mem c hx))
          ?_ hnd2 hwsub hlen hMS hzeros hwb
        intro x hx
        rcases hcover x hx with h | h
        · exact Or.inl h
        · rcases List.mem_cons.mp h with h1 | h1
          · subst h1; exact Or.inl hc
          · exact Or.inr h1
      · simp only [crossoverFillList, if_pos hguard, if_neg hc]
        have hcp1 : c ∈ p1 := hrem c (List.mem_cons_self c rest)
        have hcard : ((seg ++ written).toFinset).card = seg.length + written.length := by
          rw [List.toFinset_card_of_nodup hnd2, List.length_append]
        have hwlt : seg.length + written.length < p1.length := by omega
        have hjoff : (e + 1 + written.length) % p1.length < off.length := by
          rw [hlen]; exact Nat.mod_lt _ hn
        have hofj : off.getD ((e + 1 + written.length) % p1.length) 0 = 0 :=
          hzeros written.length (le_refl _) (by omega)
        have hlc : (written ++ [c]).length = written.length + 1 := by
          rw [List.length_append]; rfl
        have husedins :
            insert c ((seg ++ written).toFinset) = (seg ++ (written ++ [c])).toFinset := by
          rw [← List.append_assoc]
          simp [List.toFinset_append, Finset.insert_eq, Finset.union_assoc,
            Finset.union_comm, Finset.union_left_comm]
        have hjnext :
            ((e + 1 + written.length) % p1.length + 1) % p1.length
              = (e + 1 + (written ++ [c]).length) % p1.length := by
          rw [Nat.mod_add_mod, hlc]
          have harith : e + 1 + written.length + 1 = e + 1 + (written.length + 1) := by
            omega
          rw [harith]
        have hnd2' : (seg ++ (written ++ [c])).Nodup := by
          rw [← List.append_assoc, List.nodup_append]
          refine ⟨hnd2, List.nodup_singleton c, ?_⟩
          intro a ha hac
          rcases List.mem_singleton.mp hac with rfl
          exact hc (List.mem_toFinset.mpr ha)
        have hcoe : ((written ++ [c] : List Nat) : Multiset Nat)
            = (written : Multiset Nat) + {c} := by
          rw [← Multiset.coe_singleton c]
          rfl
        have hMS' : ((off.set ((e + 1 + written.length) % p1.length) c : List Nat)
              : Multiset Nat)
            = (seg : Multiset Nat) + ((written ++ [c] : List Nat) : Multiset Nat)
              + Multiset.replicate
                  (p1.length - seg.length - (written ++ [c]).length) 0 := by
          have hx := multiset_set_exchange off ((e + 1 + written.length) % p1.length)
            c hjoff
          rw [hofj, hMS] at hx
          have hk : p1.length - seg.length - written.length
              = (p1.length - seg.length - (written ++ [c]).length) + 1 := by
            rw [hlc]; omega
          rw [hk, Multiset.replicate_succ] at hx
          have h2 : ((off.set ((e + 1 + written.length) % p1.length) c : List Nat)
                : Multiset Nat) + ({0} : Multiset Nat)
              = ((seg : Multiset Nat) + ((written ++ [c] : List Nat) : Multiset Nat)
                + Multiset.replicate
                    (p1.length - seg.length - (written ++ [c]).length) 0)
                + ({0} : Multiset Nat) := by
            rw [hx, hcoe, ← Multiset.singleton_add 0]
            abel
          exact add_right_cancel h2
        have hzeros' : ∀ t, (written ++ [c]).length ≤ t →
            t < p1.length - seg.length →
            (off.set ((e + 1 + written.length) % p1.length) c).getD
              ((e + 1 + t) % p1.length) 0 = 0 := by
          intro t ht1 ht2
          rw [hlc] at ht1
          have hne : (e + 1 + t) % p1.length ≠ (e + 1 + written.length) % p1.length := by
            intro heq
            have := cyclic_inj p1.length e t written.length (by omega) (by omega) heq
            omega
          rw [getD_set_ne _ _ _ _ _ hne]
          exact hzeros t (by omega) ht2
        rw [husedins, hjnext]
        refine ih (written ++ [c]) (off.set ((e + 1 + written.length) % p1.length) c)
          (fun x hx => hrem x (List.mem_cons_of_mem c hx)) ?_ hnd2' ?_ ?_ hMS' hzeros' ?_
        · intro x hx
          rcases hcover x hx with h | h
          · left
            rw [← husedins]
            exact Finset.mem_insert_of_mem h
          · rcases List.mem_cons.mp h with h1 | h1
            · subst h1
              left
              rw [← husedins]
              exact Finset.mem_insert_self x _
            · exact Or.inr h1
        · intro x hx
          rcases List.mem_append.mp hx with h | h
          · exact hwsub x h
          · rcases List.mem_singleton.mp h with rfl
            exact hcp1
        · rw [List.length_set]; exact hlen
        · rw [hlc]; omega
    · simp only [crossoverFillList, if_neg hguard]
      have hcardp : p1.toFinset.card = p1.length := List.toFinset_card_of_nodup hnd
      have husedS : (seg ++ written).toFinset = p1.toFinset :=
        Finset.eq_of_subset_of_card_le hsubP (by omega)
      exact crossoverFill_exit_perm p1 seg written off hnd husedS hnd2 hMS

/-- The fueled fill loop equals the stream-based one: with fuel `f` it
inspects exactly the `f` parent-2 customers starting cyclically at
`p2_idx`. -/
lemma crossoverFillAux_eq_list (p2 : List Nat) (n : Nat) (hp2 : 0 < p2.length) :
    ∀ fuel off used j p2i, p2i < p2.length →
      crossoverFillAux p2 n fuel off used j p2i
        = crossoverFillList n
            ((List.range fuel).map (fun t => p2.getD ((p2i + t) % p2.length) 0))
            off used j := by
  intro fuel
  induction fuel with
  | zero =>
    intro off used j p2i _
    simp [crossoverFillAux, crossoverFillList]
  | succ fuel ih =>
    intro off used j p2i hpi
    have htail : ((fun t => p2.getD ((p2i + t) % p2.length) 0) ∘ Nat.succ)
        = fun t => p2.getD (((p2i + 1) % p2.length + t) % p2.length) 0 := by
      funext t
      simp only [Function.comp]
      congr 1
      rw [Nat.mod_add_mod]
      congr 1
      omega
    have hlist : (List.range (fuel + 1)).map
          (fun t => p2.getD ((p2i + t) % p2.length) 0)
        = p2.getD p2i 0 :: (List.range fuel).map
            (fun t => p2.getD (((p2i + 1) % p2.length + t) % p2.length) 0) := by
      rw [List.range_succ_eq_map, List.map_cons, List.map_map, htail]
      congr 1
      rw [Nat.add_zero, Nat.mod_eq_of_lt hpi]
    rw [hlist]
    simp only [crossoverFillAux, crossoverFillList]
    by_cases hg : used.card < n
    · rw [if_pos hg, if_pos hg]
      by_cases hm : p2.getD p2i 0 ∈ used
      · rw [if_pos hm, if_pos hm]
        exact ih off used j ((p2i + 1) % p2.length) (Nat.mod_lt _ hp2)
      · rw [if_neg hm, if_neg hm]
        exact ih _ _ _ ((p2i + 1) % p2.length) (Nat.mod_lt _ hp2)
    · rw [if_neg hg, if_neg hg]

/-- The stream of one full cyclic pass over parent 2 starting at `k` is
the rotation of parent 2 by `k`. -/
lemma range_map_getD_eq_rotate (p2 : List Nat) (k : Nat) (hk : k < p2.length) :
    (List.range p2.length).map (fun t => p2.getD ((k + t) % p2.length) 0)
      = p2.rotate k := by
  apply List.ext_getElem
  · simp
  · intro i h1 h2
    simp only [List.getElem_map, List.getElem_range]
    rw [List.getElem_rotate]
    have hlt : (i + k) % p2.length < p2.length := Nat.mod_lt _ (by omega)
    rw [Nat.add_comm k i, List.getD_eq_getElem p2 0 hlt]

/-- Core of claim C8: for any segment bounds `s ≤ e < n` the crossover
fill produces a permutation of parent 1. -/
lemma crossover_core_perm (p1 p2 : List Nat) (s e : Nat)
    (hperm : p1.Perm p2) (hnd : p1.Nodup) (hn : 0 < p1.length)
    (hse : s ≤ e) (hen : e < p1.length) :
    (crossoverFillAux p2 p1.length p2.length
        (copySegment p1 s e (List.replicate p1.length 0))
        (segmentSet p1 s e) ((e + 1) % p1.length) ((e + 1) % p2.length)).1.Perm p1 := by
  have hp2len : p2.length = p1.length := hperm.length_eq.symm
  have hp2pos : 0 < p2.length := by omega
  have hsegL : (oxSegment p1 s e).length = e + 1 - s := oxSegment_length p1 s e hse hen
  have hsegsub : ∀ x ∈ oxSegment p1 s e, x ∈ p1 :=
    fun x hx => (oxSegment_sublist p1 s e).subset hx
  have hsegnd : (oxSegment p1 s e).Nodup := (oxSegment_sublist p1 s e).nodup hnd
  rw [crossoverFillAux_eq_list p2 p1.length hp2pos p2.length _ _ _ _
    (Nat.mod_lt _ hp2pos)]
  rw [range_map_getD_eq_rotate p2 ((e + 1) % p2.length) (Nat.mod_lt _ hp2pos)]
  have hrotp2 : (p2.rotate ((e + 1) % p2.length)).Perm p2 := List.rotate_perm _ _
  have hsand := copySegment_sandwich p1 s e hse hen
  have hmain := crossoverFillList_perm p1 hnd hn e (oxSegment p1 s e) hsegsub
    (p2.rotate ((e + 1) % p2.length)) []
    (copySegment p1 s e (List.replicate p1.length 0))
    (fun x hx => hperm.mem_iff.mpr (hrotp2.subset hx))
    (fun x hx => Or.inr ((hrotp2.symm.subset) (hperm.subset hx)))
    (by simpa using hsegnd)
    (by simp)
    (by
      rw [hsand]
      simp only [List.length_append, List.length_replicate]
      omega)
    (by
      rw [hsand]
      show ((List.replicate s 0 : List Nat) : Multiset Nat)
          + ((oxSegment p1 s e : List Nat) : Multiset Nat)
          + ((List.replicate (p1.length - 1 - e) 0 : List Nat) : Multiset Nat) = _
      rw [Multiset.coe_replicate, Multiset.coe_replicate]
      have h1 : p1.length - (oxSegment p1 s e).length - List.length ([] : List Nat)
          = s + (p1.length - 1 - e) := by
        rw [hsegL]
        simp
        omega
      rw [h1, Multiset.replicate_add]
      show _ = (oxSegment p1 s e : Multiset Nat) + 0 + _
      abel)
    (by
      intro t _ ht2
      rw [hsegL] at ht2
      rcases cyclic_out p1.length s e t hse hen ht2 with hout | hout
      · rw [hsand]
        rw [List.getD_append _ _ _ _ (by
          simp only [List.length_append, List.length_replicate]
          omega)]
        rw [List.getD_append _ _ _ _ (by
          rw [List.length_replicate]
          omega)]
        exact replicate_getD_zero _ _
      · rw [hsand]
        rw [List.getD_append_right _ _ _ _ (by
          simp only [List.length_append, List.length_replicate]
          rw [hsegL]
          omega)]
        exact replicate_getD_zero _ _)
    (by
      rw [hsegL]
      simp
      omega)
  simpa [segmentSet] using hmain

/-- Claim C8.  For parents whose giant tours are permutations of the
same non-empty duplicate-free customer set, and any cut points drawn
from `0..tour_size`, the offspring giant tour of `Genetic::crossover` is
a permutation of parent 1 (same length, same elements, each exactly
once). -/
theorem c8_crossover_permutation (p1_tour p2_tour : List Nat) (cut1 cut2 : Nat)
    (hperm : p1_tour.Perm p2_tour) (hnd : p1_tour.Nodup) (hne : p1_tour ≠ [])
    (hc1 : cut1 < p1_tour.length) (hc2 : cut2 < p1_tour.length) :
    (Genetic.crossover p1_tour p2_tour cut1 cut2).giant_tour.Perm p1_tour := by
  have hn : 0 < p1_tour.length := List.length_pos.mpr hne
  have hp2len : p2_tour.length = p1_tour.length := hperm.length_eq.symm
  have hp1ne : ¬ p1_tour.isEmpty = true := by
    rw [List.isEmpty_iff]
    exact hne
  have hp2ne : ¬ p2_tour.isEmpty = true := by
    rw [List.isEmpty_iff]
    intro h
    rw [h] at hp2len
    simp at hp2len
    omega
  have hg : (Genetic.crossover p1_tour p2_tour cut1 cut2).giant_tour
      = (crossoverFillAux p2_tour p1_tour.length p2_tour.length
          (copySegment p1_tour (if cut1 ≤ cut2 then cut1 else cut2)
            (if cut1 ≤ cut2 then cut2 else cut1)
            (List.replicate p1_tour.length 0))
          (segmentSet p1_tour (if cut1 ≤ cut2 then cut1 else cut2)
            (if cut1 ≤ cut2 then cut2 else cut1))
          (((if cut1 ≤ cut2 then cut2 else cut1) + 1) % p1_tour.length)
          (((if cut1 ≤ cut2 then cut2 else cut1) + 1) % p2_tour.length)).1 := by
    rw [Genetic.crossover, if_neg (not_or.mpr ⟨hp1ne, hp2ne⟩)]
    rfl
  rw [hg]
  by_cases h : cut1 ≤ cut2
  · simp only [if_pos h]
    exact crossover_core_perm p1_tour p2_tour cut1 cut2 hperm hnd hn h hc2
  · simp only [if_neg h]
    exact crossover_core_perm p1_tour p2_tour cut2 cut1 hperm hnd hn (by omega) hc1

/-- Witness for C8: concrete parents `[1, 2, 3]` and `[3, 1, 2]` with
cut points 1 and 1. -/
theorem c8_crossover_permutation_witness :
    (Genetic.crossover [1, 2, 3] [3, 1, 2] 1 1).giant_tour.Perm [1, 2, 3] :=
  c8_crossover_permutation [1, 2, 3] [3, 1, 2] 1 1 (by decide) (by decide)
    (by decide) (by decide) (by decide)

/-! ### Individuals, population and orchestrator
(src/individual.rs, src/population.rs, src/lib.rs) -/

/-- Individual (src/individual.rs, `struct Individual`). -/
structure Individual where
  solution : Solution
  rank_feasibility : Nat
  rank_diversity : Nat
  biased_fitness : ℚ
  common_pairs : List Nat

/-- `Individual::new` (src/individual.rs lines 23-31): fresh individuals
carry rank 0 and biased fitness 0. -/
def Individual.new (solution : Solution) : Individual :=
  { solution := solution, rank_feasibility := 0, rank_diversity := 0,
    biased_fitness := 0, common_pairs := [] }

instance : Inhabited Individual := ⟨Individual.new Solution.new⟩

/-- `Individual::get_cost` (src/individual.rs lines 99-101). -/
def Individual.get_cost (ind : Individual) : ℚ := ind.solution.cost

/-- `Individual::is_feasible` (src/individual.rs lines 109-111). -/
def Individual.is_feasible (ind : Individual) : Bool := ind.solution.is_feasible

/-- `Individual::is_clone_of` (src/individual.rs lines 60-66): exact
equality of the giant tours (the length test is subsumed). -/
def Individual.is_clone_of (a b : Individual) : Bool :=
  decide (a.solution.giant_tour = b.solution.giant_tour)

/-- Population (src/population.rs, `struct Population`).  The target
feasibility proportion is omitted: no claim consumes it. -/
structure Population where
  feasible_individuals : List Individual
  infeasible_individuals : List Individual
  capacity_penalty : ℚ
  min_pop_size : Nat
  max_pop_size : Nat
  n_closest : Nat
  n_elite : Nat

/-- `Population::new` (src/population.rs lines 32-45) on the modelled
fields. -/
def Population.new (min_pop_size generation_size n_elite n_closest : Nat)
    (initial_capacity_penalty : ℚ) : Population :=
  { feasible_individuals := [], infeasible_individuals := [],
    capacity_penalty := initial_capacity_penalty,
    min_pop_size := min_pop_size,
    max_pop_size := min_pop_size + generation_size,
    n_closest := n_closest, n_elite := n_elite }

/-- `Population::insert_individual` (src/population.rs lines 73-79):
push into the bag chosen by the feasibility flag at insertion time. -/
def Population.insert_individual (pop : Population) (ind : Individual) : Population :=
  if ind.is_feasible then
    { pop with feasible_individuals := pop.feasible_individuals ++ [ind] }
  else
    { pop with infeasible_individuals := pop.infeasible_individuals ++ [ind] }

/-- `Population::get_best_feasible_solution` (src/population.rs lines
348-357): `min_by` cost over the feasible bag (`min_by` keeps the last
of equally minimal elements, hence the not-strict comparison). -/
def Population.get_best_feasible_solution (pop : Population) : Option Solution :=
  (pop.feasible_individuals.foldl
    (fun acc ind =>
      match acc with
      | none => some ind
      | some m => if ind.get_cost ≤ m.get_cost then some ind else some m)
    none).map Individual.solution

/-- One iteration of `Population::initialize` (src/population.rs lines
51-65): the solution is built by `Solution::from_giant_tour` and then
evaluated directly — `Split::split` is never invoked, so its routes stay
empty. -/
def initialSolution (p : Problem) (capacity_penalty : ℚ)
    (giant_tour : List Nat) : Solution :=
  (Solution.from_giant_tour giant_tour).evaluate p capacity_penalty

/-- The index list the initial giant tours are shuffles of
(src/population.rs line 53): `(0..problem.get_customer_count())`. -/
def initialTourIndices (p : Problem) : List Nat :=
  List.range p.get_customer_count

/-- `Population::initialize` (src/population.rs lines 48-70) with the
random shuffles supplied as an oracle; inserts `4 * min_pop_size`
individuals.  (`update_ranks` follows in the Rust code; it does not
change the bag contents.) -/
def Population.initPop (pop : Population) (p : Problem)
    (shuffles : Nat → List Nat) : Population :=
  (List.range (4 * pop.min_pop_size)).foldl
    (fun acc k =>
      acc.insert_individual
        (Individual.new (initialSolution p acc.capacity_penalty (shuffles k))))
    pop

/-- Three-node instance (depot plus customers 1 and 2, collinear on the
x-axis) used by claims C4 and C5. -/
def xsC4 : List ℚ := [0, 10, 20]

def problemC4 : Problem :=
  { nodes := [ { id := 0, x := 0, y := 0, demand := 0, is_depot := true },
               { id := 1, x := 10, y := 0, demand := 1, is_depot := false },
               { id := 2, x := 20, y := 0, demand := 1, is_depot := false } ]
    depot_index := 0
    vehicle_capacity := 10
    distance_matrix := fun i j => |xsC4.getD i 0 - xsC4.getD j 0| }

lemma insert_individual_total (pop : Population) (ind : Individual) :
    (pop.insert_individual ind).feasible_individuals.length
      + (pop.insert_individual ind).infeasible_individuals.length
      = pop.feasible_individuals.length + pop.infeasible_individuals.length + 1 := by
  unfold Population.insert_individual
  split <;> simp <;> omega

lemma initPop_fold_total (p : Problem) (shuffles : Nat → List Nat) :
    ∀ (ks : List Nat) (pop : Population),
      ((ks.foldl (fun acc k => acc.insert_individual
          (Individual.new (initialSolution p acc.capacity_penalty (shuffles k)))) pop)
        |>.feasible_individuals.length)
      + ((ks.foldl (fun acc k => acc.insert_individual
          (Individual.new (initialSolution p acc.capacity_penalty (shuffles k)))) pop)
        |>.infeasible_individuals.length)
      = pop.feasible_individuals.length + pop.infeasible_individuals.length
        + ks.length := by
  intro ks
  induction ks with
  | nil => intro pop; simp
  | cons k rest ih =>
    intro pop
    rw [List.foldl_cons]
    rw [ih]
    rw [insert_individual_total]
    simp
    omega

/-- Claim C4.  `Population::initialize` inserts exactly `4 * mu`
individuals (first conjunct), but on the three-node problem the shuffled
index list is `[0, 1]` — it contains the depot index 0 and misses
customer 2 — and every inserted solution has an empty route list, cost 0
and is classified feasible, because `Split::split` is never called: the
claim that each tour is a permutation of all customers converted into
routes by Split fails. -/
theorem c4_initPop_never_splits :
    (∀ (mu gs ne nc : Nat) (pen : ℚ) (shuffles : Nat → List Nat),
      List.length (Population.feasible_individuals
          ((Population.new mu gs ne nc pen).initPop problemC4 shuffles))
        + List.length (Population.infeasible_individuals
          ((Population.new mu gs ne nc pen).initPop problemC4 shuffles))
        = 4 * mu)
    ∧ initialTourIndices problemC4 = [0, 1]
    ∧ problemC4.depot_index ∈ initialTourIndices problemC4
    ∧ 2 ∉ initialTourIndices problemC4
    ∧ (∀ (pen : ℚ) (tour : List Nat),
        (initialSolution problemC4 pen tour).routes = []
        ∧ (initialSolution problemC4 pen tour).cost = 0
        ∧ (initialSolution problemC4 pen tour).is_feasible = true) := by
  refine ⟨?_, by decide, by decide, by decide, ?_⟩
  · intro mu gs ne nc pen shuffles
    unfold Population.initPop
    rw [initPop_fold_total]
    simp [Population.new]
  · intro pen tour
    refine ⟨rfl, ?_, ?_⟩
    · show (0 : ℚ) + pen * 0 = 0
      ring
    · show decide ((0 : ℚ) ≤ epsFeas) = true
      rw [decide_eq_true_eq]
      norm_num [epsFeas]

/-- `HgsAlgorithm::should_terminate` (src/lib.rs lines 128-142), the
monotone-clock reading passed explicitly. -/
def should_terminate (iterations_without_improvement max_iterations : Nat)
    (elapsed : ℚ) (time_limit : Option ℚ) : Bool :=
  if iterations_without_improvement ≥ max_iterations then true
  else
    match time_limit with
    | some tl => decide (elapsed ≥ tl)
    | none => false

/-- The return step of `HgsAlgorithm::run` (src/lib.rs line 124):
`self.best_solution.as_ref().unwrap()`.  The `none` branch models the
Rust panic of `unwrap`. -/
def runReturn (best_solution : Option Solution) : Except Unit Solution :=
  match best_solution with
  | some s => Except.ok s
  | none => Except.error ()

/-- Claim C5, amended.  `should_terminate` holds exactly when the
no-improvement counter has reached the limit or the elapsed time has
reached the configured time limit; the return step yields the recorded
best solution when one exists and panics (is not an optional result)
when none does. -/
theorem c5_termination_and_return :
    (∀ (iters limit : Nat) (elapsed : ℚ) (tl : Option ℚ),
      should_terminate iters limit elapsed tl = true
        ↔ (limit ≤ iters ∨ ∃ t, tl = some t ∧ t ≤ elapsed))
    ∧ (∀ s : Solution, runReturn (some s) = Except.ok s)
    ∧ runReturn none = Except.error () := by
  refine ⟨?_, fun s => rfl, rfl⟩
  intro iters limit elapsed tl
  constructor
  · intro h
    unfold should_terminate at h
    by_cases hit : iters ≥ limit
    · exact Or.inl hit
    · rw [if_neg hit] at h
      cases tl with
      | none => simp at h
      | some t =>
        right
        refine ⟨t, rfl, ?_⟩
        simpa using h
  · intro h
    unfold should_terminate
    rcases h with h | ⟨t, rfl, ht⟩
    · rw [if_pos h]
    · by_cases hit : iters ≥ limit
      · rw [if_pos hit]
      · rw [if_neg hit]
        simpa using ht

/-- Counterexample for C5 as stated.  With `min_pop_size = 0` the
initialisation inserts no individual, no best solution is recorded, the
iteration limit 0 terminates the loop immediately, and the return step
is the error (panic) branch — the absence of a best solution is a
failure, not an optional result handed to the caller. -/
theorem c5_run_panics_without_best :
    Population.feasible_individuals
        ((Population.new 0 40 4 5 1).initPop problemC4 (fun _ => [])) = []
    ∧ Population.get_best_feasible_solution
        ((Population.new 0 40 4 5 1).initPop problemC4 (fun _ => [])) = none
    ∧ should_terminate 0 0 0 none = true
    ∧ runReturn none = Except.error () :=
  ⟨rfl, rfl, rfl, rfl⟩

/-- The best-solution update of the main loop (src/lib.rs lines
105-112): when the previous and current population bests both exist and
the current is strictly cheaper, record the current best and reset the
counter; when both exist otherwise, increment the counter; in all other
cases leave the state unchanged.  The comparison is against the
previous population best, not against the recorded best solution. -/
def bestUpdateStep (best_solution previous_best current_best : Option Solution)
    (iterations_without_improvement : Nat) : Option Solution × Nat :=
  match previous_best, current_best with
  | some prev, some curr =>
      if curr.cost < prev.cost then (some curr, 0)
      else (best_solution, iterations_without_improvement + 1)
  | _, _ => (best_solution, iterations_without_improvement)

def solutionWithCost (c : ℚ) : Solution := { Solution.new with cost := c }

def individualWithCost (c : ℚ) : Individual := Individual.new (solutionWithCost c)

def popC6prev : Population :=
  { Population.new 25 40 4 5 1 with
    feasible_individuals := [individualWithCost 20] }

def popC6curr : Population :=
  { Population.new 25 40 4 5 1 with
    feasible_individuals := [individualWithCost 15] }

/-- Claim C6.  A main-loop state in which the recorded best solution
costs 10 while the population best worsened to 20 (the cost-10
individual having been evicted) and the new population best costs 15:
the update step replaces the recorded best by the cost-15 solution
because 15 < 20, so `best_solution` is replaced by a strictly costlier
solution and its cost is not monotonically non-increasing. -/
theorem c6_best_update_not_monotone :
    popC6prev.get_best_feasible_solution = some (solutionWithCost 20)
    ∧ popC6curr.get_best_feasible_solution = some (solutionWithCost 15)
    ∧ (bestUpdateStep (some (solutionWithCost 10))
        popC6prev.get_best_feasible_solution popC6curr.get_best_feasible_solution 7)
        = (some (solutionWithCost 15), 0)
    ∧ (solutionWithCost 10).cost < (solutionWithCost 15).cost := by
  have h1 : popC6prev.get_best_feasible_solution = some (solutionWithCost 20) := rfl
  have h2 : popC6curr.get_best_feasible_solution = some (solutionWithCost 15) := rfl
  have hcost : (solutionWithCost 15).cost < (solutionWithCost 20).cost := by
    show (15 : ℚ) < 20
    norm_num
  refine ⟨h1, h2, ?_, ?_⟩
  · rw [h1, h2]
    simp [bestUpdateStep, hcost]
  · show (10 : ℚ) < 15
    norm_num

/-! ### Claim C7: survivor selection -/

/-- The stable sort by biased fitness of
`select_survivors_for_subpop` (src/population.rs line 279,
`sort_by(partial_cmp.unwrap)`); the Rust stable slice sort is modelled by
the stable insertion sort. -/
def sortByFitness (inds : List Individual) : List Individual :=
  List.insertionSort (fun a b => a.biased_fitness ≤ b.biased_fitness) inds

/-- Inner clone scan `for j in (i+1)..len` (src/population.rs lines
289-297): mark unmarked clones of individual `i`, breaking as soon as
the bag would reach `min_pop_size`. -/
def cloneScanInner (sorted : List Individual) (mu i : Nat) :
    List Nat → Finset Nat → Finset Nat
  | [], marked => marked
  | j :: rest, marked =>
    if j ∉ marked ∧ ((sorted.getD i default).is_clone_of (sorted.getD j default)) = true then
      if sorted.length - (insert j marked).card ≤ mu then insert j marked
      else cloneScanInner sorted mu i rest (insert j marked)
    else cloneScanInner sorted mu i rest marked

/-- Outer clone scan `for i in 0..len` (src/population.rs lines
284-302), with the `continue` on already-marked rows and the break once
the bag would reach `min_pop_size`. -/
def cloneScanOuter (sorted : List Individual) (mu : Nat) :
    List Nat → Finset Nat → Finset Nat
  | [], marked => marked
  | i :: rest, marked =>
    if i ∈ marked then cloneScanOuter sorted mu rest marked
    else
      let m2 := cloneScanInner sorted mu i
        (List.range' (i + 1) (sorted.length - i - 1)) marked
      if sorted.length - m2.card ≤ mu then m2
      else cloneScanOuter sorted mu rest m2

/-- Worst-fitness removal loop (src/population.rs lines 304-311):
`while len - marked > mu and i > 0`, marking index `i` and decrementing. -/
def phase2Marks (len mu : Nat) : Nat → Finset Nat → Finset Nat
  | 0, marked => marked
  | i + 1, marked =>
    if len - marked.card > mu then phase2Marks len mu i (insert (i + 1) marked)
    else marked

/-- Removal of the marked indices in descending order
(src/population.rs lines 313-319). -/
def removeMarked (inds : List Individual) (marked : Finset Nat) : List Individual :=
  ((marked.sort (· ≤ ·)).reverse).foldl (fun l idx => l.eraseIdx idx) inds

/-- `Population::select_survivors_for_subpop` (src/population.rs lines
269-320). -/
def select_survivors_for_subpop (inds : List Individual) (mu : Nat) : List Individual :=
  if inds.length ≤ mu then inds
  else
    let sorted := sortByFitness inds
    let m1 := cloneScanOuter sorted mu (List.range sorted.length) ∅
    let m2 := phase2Marks sorted.length mu (sorted.length - 1) m1
    removeMarked sorted m2

/-- `Population::select_survivors` (src/population.rs lines 263-266). -/
def Population.select_survivors (pop : Population) : Population :=
  { pop with
    feasible_individuals :=
      select_survivors_for_subpop pop.feasible_individuals pop.min_pop_size
    infeasible_individuals :=
      select_survivors_for_subpop pop.infeasible_individuals pop.min_pop_size }

lemma eraseIdx_chain_length {α : Type} :
    ∀ (idxs : List Nat) (l : List α),
      idxs.Pairwise (· > ·) → (∀ i ∈ idxs, i < l.length) →
      (idxs.foldl (fun acc idx => acc.eraseIdx idx) l).length
        = l.length - idxs.length := by
  intro idxs
  induction idxs with
  | nil => intro l _ _; simp
  | cons i rest ih =>
    intro l hp hb
    rw [List.foldl_cons]
    have hi : i < l.length := hb i (List.mem_cons_self i rest)
    have hlen1 : (l.eraseIdx i).length = l.length - 1 := by
      rw [List.length_eraseIdx, if_pos hi]
    rw [List.pairwise_cons] at hp
    have hb2 : ∀ j ∈ rest, j < (l.eraseIdx i).length := by
      intro j hj
      have hji : i > j := hp.1 j hj
      rw [hlen1]
      omega
    rw [ih (l.eraseIdx i) hp.2 hb2, hlen1]
    simp only [List.length_cons]
    omega

lemma cloneScanInner_range (sorted : List Individual) (mu i : Nat) :
    ∀ (js : List Nat) (marked : Finset Nat),
      (∀ j ∈ js, j < sorted.length) → marked ⊆ Finset.range sorted.length →
      cloneScanInner sorted mu i js marked ⊆ Finset.range sorted.length := by
  intro js
  induction js with
  | nil =>
    intro marked _ hm
    simpa [cloneScanInner] using hm
  | cons j rest ih =>
    intro marked hjs hm
    have hjlt : j < sorted.length := hjs j (List.mem_cons_self _ _)
    have hins : insert j marked ⊆ Finset.range sorted.length := by
      intro x hx
      rcases Finset.mem_insert.mp hx with rfl | hx
      · exact Finset.mem_range.mpr hjlt
      · exact hm hx
    have htl : ∀ x ∈ rest, x < sorted.length :=
      fun x hx => hjs x (List.mem_cons_of_mem _ hx)
    unfold cloneScanInner
    split
    · split
      · exact hins
      · exact ih _ htl hins
    · exact ih _ htl hm

lemma cloneScanOuter_range (sorted : List Individual) (mu : Nat) :
    ∀ (is : List Nat) (marked : Finset Nat),
      marked ⊆ Finset.range sorted.length →
      cloneScanOuter sorted mu is marked ⊆ Finset.range sorted.length := by
  intro is
  induction is with
  | nil =>
    intro marked hm
    simpa [cloneScanOuter] using hm
  | cons i rest ih =>
    intro marked hm
    have hinner : cloneScanInner sorted mu i
        (List.range' (i + 1) (sorted.length - i - 1)) marked
        ⊆ Finset.range sorted.length := by
      apply cloneScanInner_range
      · intro j hj
        rw [List.mem_range'_1] at hj
        omega
      · exact hm
    unfold cloneScanOuter
    split
    · exact ih _ hm
    · dsimp only
      split
      · exact hinner
      · exact ih _ hinner

lemma phase2Marks_range (len mu : Nat) :
    ∀ (i : Nat) (marked : Finset Nat), i < len → marked ⊆ Finset.range len →
      phase2Marks len mu i marked ⊆ Finset.range len := by
  intro i
  induction i with
  | zero =>
    intro marked _ hm
    simpa [phase2Marks] using hm
  | succ i ih =>
    intro marked hlt hm
    unfold phase2Marks
    split
    · apply ih _ (by omega)
      intro x hx
      rcases Finset.mem_insert.mp hx with rfl | hx
      · exact Finset.mem_range.mpr hlt
      · exact hm hx
    · exact hm

lemma phase2Marks_complete (len mu : Nat) :
    ∀ (i : Nat) (marked : Finset Nat),
      (∀ k, i < k → k < len → k ∈ marked) →
      (len - (phase2Marks len mu i marked).card ≤ mu
        ∨ ∀ k, 0 < k → k < len → k ∈ phase2Marks len mu i marked) := by
  intro i
  induction i with
  | zero =>
    intro marked hcov
    by_cases hcond : len - marked.card ≤ mu
    · left
      simpa [phase2Marks] using hcond
    · right
      intro k hk1 hk2
      simp only [phase2Marks]
      exact hcov k hk1 hk2
  | succ i ih =>
    intro marked hcov
    by_cases hcond : len - marked.card > mu
    · have hstep : phase2Marks len mu (i + 1) marked
          = phase2Marks len mu i (insert (i + 1) marked) := by
        show (if len - marked.card > mu
            then phase2Marks len mu i (insert (i + 1) marked) else marked) = _
        rw [if_pos hcond]
      rw [hstep]
      apply ih
      intro k hk1 hk2
      by_cases hk : k = i + 1
      · subst hk; exact Finset.mem_insert_self _ _
      · exact Finset.mem_insert_of_mem (hcov k (by omega) hk2)
    · left
      have hstep : phase2Marks len mu (i + 1) marked = marked := by
        show (if len - marked.card > mu
            then phase2Marks len mu i (insert (i + 1) marked) else marked) = _
        rw [if_neg hcond]
      rw [hstep]
      omega

lemma removeMarked_length (l : List Individual) (m : Finset Nat)
    (hsub : ∀ i ∈ m, i < l.length) :
    (removeMarked l m).length = l.length - m.card := by
  unfold removeMarked
  have hpair : ((m.sort (· ≤ ·)).reverse).Pairwise (· > ·) := by
    rw [List.pairwise_reverse]
    exact Finset.sort_sorted_lt m
  have hmem : ∀ i ∈ (m.sort (· ≤ ·)).reverse, i < l.length := by
    intro i hi
    rw [List.mem_reverse] at hi
    exact hsub i ((Finset.mem_sort _).mp hi)
  rw [eraseIdx_chain_length _ l hpair hmem]
  rw [List.length_reverse, Finset.length_sort]

/-- Claim C7, amended.  For `min_pop_size ≥ 1`, after
`select_survivors_for_subpop` the bag has at most `min_pop_size`
individuals.  (Exact giant-tour clones may survive: see the
counterexample theorem.) -/
theorem c7_select_survivors_size (inds : List Individual) (mu : Nat) (hmu : 1 ≤ mu) :
    (select_survivors_for_subpop inds mu).length ≤ mu := by
  unfold select_survivors_for_subpop
  by_cases hle : inds.length ≤ mu
  · rw [if_pos hle]; exact hle
  · rw [if_neg hle]
    have hlen0 : 0 < (sortByFitness inds).length := by
      unfold sortByFitness
      rw [List.length_insertionSort]
      omega
    show (removeMarked (sortByFitness inds)
        (phase2Marks (sortByFitness inds).length mu ((sortByFitness inds).length - 1)
          (cloneScanOuter (sortByFitness inds) mu
            (List.range (sortByFitness inds).length) ∅))).length ≤ mu
    have hm1r : cloneScanOuter (sortByFitness inds) mu
        (List.range (sortByFitness inds).length) ∅
        ⊆ Finset.range (sortByFitness inds).length :=
      cloneScanOuter_range _ _ _ _ (Finset.empty_subset _)
    have hm2r : phase2Marks (sortByFitness inds).length mu
        ((sortByFitness inds).length - 1)
        (cloneScanOuter (sortByFitness inds) mu
          (List.range (sortByFitness inds).length) ∅)
        ⊆ Finset.range (sortByFitness inds).length :=
      phase2Marks_range _ _ _ _ (by omega) hm1r
    have hcardle : (phase2Marks (sortByFitness inds).length mu
        ((sortByFitness inds).length - 1)
        (cloneScanOuter (sortByFitness inds) mu
          (List.range (sortByFitness inds).length) ∅)).card
        ≤ (sortByFitness inds).length := by
      calc _ ≤ (Finset.range (sortByFitness inds).length).card :=
            Finset.card_le_card hm2r
      _ = (sortByFitness inds).length := Finset.card_range _
    rw [removeMarked_length _ _ (fun i hi => Finset.mem_range.mp (hm2r hi))]
    rcases phase2Marks_complete (sortByFitness inds).length mu
        ((sortByFitness inds).length - 1)
        (cloneScanOuter (sortByFitness inds) mu
          (List.range (sortByFitness inds).length) ∅)
        (fun k hk1 hk2 => absurd hk2 (by omega)) with h | h
    · exact h
    · have hsub : Finset.Ico 1 (sortByFitness inds).length
          ⊆ phase2Marks (sortByFitness inds).length mu
              ((sortByFitness inds).length - 1)
              (cloneScanOuter (sortByFitness inds) mu
                (List.range (sortByFitness inds).length) ∅) := by
        intro k hk
        rw [Finset.mem_Ico] at hk
        exact h k (by omega) hk.2
      have hcard : (sortByFitness inds).length - 1
          ≤ (phase2Marks (sortByFitness inds).length mu
              ((sortByFitness inds).length - 1)
              (cloneScanOuter (sortByFitness inds) mu
                (List.range (sortByFitness inds).length) ∅)).card := by
        calc (sortByFitness inds).length - 1
            = (Finset.Ico 1 (sortByFitness inds).length).card := by
              rw [Nat.card_Ico]
        _ ≤ _ := Finset.card_le_card hsub
      omega

def indC7 (tour : List Nat) (fit : ℚ) : Individual :=
  { Individual.new (Solution.from_giant_tour tour) with biased_fitness := fit }

/-- Bag of four individuals, sorted by fitness, whose giant tours are
`[1,2]`, `[1,2]`, `[2,1]`, `[2,1]`. -/
def bagC7 : List Individual :=
  [indC7 [1, 2] 1, indC7 [1, 2] 2, indC7 [2, 1] 3, indC7 [2, 1] 4]

set_option maxHeartbeats 2000000 in
/-- Counterexample for claim C7.  With `min_pop_size = 3` the clone scan
marks only index 1 before the bag reaches size 3 and stops, so the
surviving bag `[[1,2], [2,1], [2,1]]` has size 3 > 1 and still contains
two individuals with exactly equal giant tours; and with
`min_pop_size = 0` the surviving bag has size 1 > 0 (index 0 is never
removable), violating the size bound for `mu = 0`. -/
theorem c7_clones_survive :
    ((select_survivors_for_subpop bagC7 3).map (fun i => i.solution.giant_tour))
      = [[1, 2], [2, 1], [2, 1]]
    ∧ (select_survivors_for_subpop bagC7 3).length = 3
    ∧ 1 < (select_survivors_for_subpop bagC7 3).length
    ∧ (select_survivors_for_subpop [indC7 [1, 2] 1, indC7 [2, 1] 3] 0).length = 1
    ∧ 0 < (select_survivors_for_subpop [indC7 [1, 2] 1, indC7 [2, 1] 3] 0).length := by
  refine ⟨?_, ?_, ?_, ?_, ?_⟩ <;>
    norm_num [select_survivors_for_subpop, sortByFitness, List.insertionSort,
      List.orderedInsert, cloneScanOuter, cloneScanInner, phase2Marks, removeMarked,
      indC7, bagC7, Individual.is_clone_of, Individual.new, Solution.from_giant_tour,
      Solution.new, List.range_succ, List.range', Finset.sort_singleton,
      List.eraseIdx]

/-- Witness for the amended C7 at the concrete bag: the surviving bag
size is at most 3. -/
theorem c7_select_survivors_size_witness :
    (select_survivors_for_subpop bagC7 3).length ≤ 3 :=
  c7_select_survivors_size bagC7 3 (by norm_num)

/-! ### Claim C10: parent selection -/

/-- Redraw loop for the second tournament index
(src/population.rs lines 241-246): redraw while `idx2` equals `idx1` and
the subpopulation has more than one member.  The RNG is an oracle read
at successive counter positions; `gen_range(0..len)` is modelled as the
draw reduced modulo `len`.  Fuel bounds the loop, `none` modelling
divergence. -/
def redrawIdx (len idx1 : Nat) (rng : Nat → Nat) :
    Nat → Nat → Option (Nat × Nat)
  | 0, _ => none
  | fuel + 1, k =>
    if idx1 = rng k % len ∧ 1 < len then redrawIdx len idx1 rng fuel (k + 1)
    else some (rng k % len, k + 1)

/-- `Population::binary_tournament_selection` (src/population.rs lines
219-254).  A parent reference is the pair of the bag flag (true =
feasible) and the index in that bag, mirroring `std::ptr::eq` on the
bag elements; `none` models the redraw divergence or the panic on an
empty population. -/
def binary_tournament (pop : Population) (rng : Nat → Nat) (fuel k : Nat) :
    Option ((Bool × Nat) × Nat) :=
  let choice :=
    if pop.feasible_individuals.isEmpty then (false, k)
    else if pop.infeasible_individuals.isEmpty then (true, k)
    else (decide (rng k % 2 = 0), k + 1)
  let subpop :=
    if choice.1 then pop.feasible_individuals else pop.infeasible_individuals
  if subpop.isEmpty then none
  else
    let idx1 := rng choice.2 % subpop.length
    match redrawIdx subpop.length idx1 rng fuel (choice.2 + 1) with
    | none => none
    | some (idx2, k2) =>
        if (subpop.getD idx1 default).biased_fitness
            ≤ (subpop.getD idx2 default).biased_fitness
        then some ((choice.1, idx1), k2)
        else some ((choice.1, idx2), k2)

/-- Outer distinctness loop of `Population::select_parents`
(src/population.rs lines 210-213): redraw parent 2 while it is the same
reference as parent 1. -/
def selectParentsLoop (pop : Population) (rng : Nat → Nat) (p1 : Bool × Nat) :
    Nat → Nat → Option ((Bool × Nat) × (Bool × Nat))
  | 0, _ => none
  | fuel + 1, k =>
    match binary_tournament pop rng (fuel + 1) k with
    | none => none
    | some (p2, k2) =>
        if p2 = p1 then selectParentsLoop pop rng p1 fuel k2
        else some (p1, p2)

/-- `Population::select_parents` (src/population.rs lines 203-216), the
RNG as an oracle and fuel bounding the two unbounded loops; `none`
models non-termination. -/
def select_parents (pop : Population) (rng : Nat → Nat) (fuel : Nat) :
    Option ((Bool × Nat) × (Bool × Nat)) :=
  match binary_tournament pop rng fuel 0 with
  | none => none
  | some (p1, k1) => selectParentsLoop pop rng p1 fuel k1

/-- `select_parents` diverges on a population: it returns for no RNG
behaviour and no iteration bound. -/
def selectParentsDiverges (pop : Population) : Prop :=
  ∀ (rng : Nat → Nat) (fuel : Nat), select_parents pop rng fuel = none

lemma selectParentsLoop_distinct (pop : Population) (rng : Nat → Nat) (p1 : Bool × Nat) :
    ∀ (fuel k : Nat) (q1 q2 : Bool × Nat),
      selectParentsLoop pop rng p1 fuel k = some (q1, q2) → q1 ≠ q2 := by
  intro fuel
  induction fuel with
  | zero =>
    intro k q1 q2 h
    simp [selectParentsLoop] at h
  | succ fuel ih =>
    intro k q1 q2 h
    unfold selectParentsLoop at h
    cases hbt : binary_tournament pop rng (fuel + 1) k with
    | none => rw [hbt] at h; simp at h
    | some v =>
      rw [hbt] at h
      obtain ⟨p2, k2⟩ := v
      dsimp only at h
      by_cases heq : p2 = p1
      · rw [if_pos heq] at h
        exact ih k2 q1 q2 h
      · rw [if_neg heq] at h
        simp only [Option.some_inj, Prod.mk.injEq] at h
        obtain ⟨h1, h2⟩ := h
        subst h1
        subst h2
        exact fun hc => heq hc.symm

/-- Claim C10, amended.  Whenever `select_parents` returns, the two
parent references are distinct (different bag or different index, the
model of `std::ptr::eq` being false). -/
theorem c10_select_parents_distinct (pop : Population) (rng : Nat → Nat)
    (fuel : Nat) (q1 q2 : Bool × Nat)
    (h : select_parents pop rng fuel = some (q1, q2)) : q1 ≠ q2 := by
  unfold select_parents at h
  cases hbt : binary_tournament pop rng fuel 0 with
  | none => rw [hbt] at h; simp at h
  | some v =>
    rw [hbt] at h
    obtain ⟨p1, k1⟩ := v
    exact selectParentsLoop_distinct pop rng p1 fuel k1 q1 q2 h

/-- Population with a single (feasible) individual. -/
def popC10a : Population :=
  { Population.new 25 40 4 5 1 with feasible_individuals := [indC7 [1, 2] 1] }

/-- Population with one feasible and one infeasible individual. -/
def popC10b : Population :=
  { Population.new 25 40 4 5 1 with
    feasible_individuals := [indC7 [1, 2] 1]
    infeasible_individuals := [indC7 [2, 1] 2] }

lemma bt_popC10a (rng : Nat → Nat) (f k : Nat) :
    binary_tournament popC10a rng (f + 1) k = some ((true, 0), k + 2) := by
  unfold binary_tournament redrawIdx
  norm_num [popC10a, Population.new, indC7, Individual.new,
    Solution.from_giant_tour, Solution.new, Nat.mod_one, List.getD]

lemma selectParentsLoop_popC10a (rng : Nat → Nat) :
    ∀ (fuel k : Nat), selectParentsLoop popC10a rng (true, 0) fuel k = none := by
  intro fuel
  induction fuel with
  | zero => intro k; rfl
  | succ f ih =>
    intro k
    unfold selectParentsLoop
    rw [bt_popC10a rng f k]
    dsimp only
    rw [if_pos rfl]
    exact ih (k + 2)

/-- Counterexample for claim C10.  On the non-empty population holding a
single individual, every tournament returns that same individual, so the
distinctness loop of `select_parents` never exits: the function diverges
for every RNG behaviour (in the fuel model it returns for no fuel). -/
theorem c10_select_parents_diverges_on_singleton :
    selectParentsDiverges popC10a := by
  intro rng fuel
  unfold select_parents
  cases fuel with
  | zero => rfl
  | succ f =>
    rw [bt_popC10a rng f 0]
    exact selectParentsLoop_popC10a rng (f + 1) (0 + 2)

/-- Witness for the amended C10: on the two-individual population the
run with the identity RNG returns the two distinct references
`(true, 0)` and `(false, 0)`. -/
theorem c10_select_parents_distinct_witness :
    ((true, 0) : Bool × Nat) ≠ ((false, 0) : Bool × Nat) :=
  c10_select_parents_distinct popC10b (fun k => k) 2 (true, 0) (false, 0) (by
    norm_num [select_parents, binary_tournament, redrawIdx, selectParentsLoop,
      popC10b, Population.new, indC7, Individual.new,
      Solution.from_giant_tour, Solution.new, Nat.mod_one, List.getD])
